import Mathlib

set_option maxRecDepth 8192

/-!
Verification of the RF_Fox encrypted-messaging core (`rf_fox.py`).

The Python source is shallowly embedded: bytes are `Nat` values below 256,
Python `str` is Lean `String`, fallible operations return `Option`/`Except`,
and the radio transport and the filesystem are explicit state.  The external
PyCryptodome RSA/OAEP cipher is modelled as a parameter (`Cipher`) whose
contract (`CipherOK`) records the documented OAEP behaviour: encryption of a
payload within the key's size bound succeeds and is inverted by decryption,
oversized payloads fail, and each encryption call consumes fresh randomness.
-/

/-! ### UTF-8 (Python `str.encode("utf-8")` / `bytes.decode("utf-8")`) -/

/-- UTF-8 encoding of a single Unicode code point as a list of byte values. -/
def utf8EncodeChar (n : Nat) : List Nat :=
  if n < 0x80 then [n]
  else if n < 0x800 then [0xC0 + n / 0x40, 0x80 + n % 0x40]
  else if n < 0x10000 then
    [0xE0 + n / 0x1000, 0x80 + n / 0x40 % 0x40, 0x80 + n % 0x40]
  else
    [0xF0 + n / 0x40000, 0x80 + n / 0x1000 % 0x40, 0x80 + n / 0x40 % 0x40, 0x80 + n % 0x40]

/-- UTF-8 encoding of a whole string (Python `message.encode("utf-8")`). -/
def utf8Encode (s : String) : List Nat :=
  (s.data.map (fun c => utf8EncodeChar c.toNat)).flatten

/-- Surrogate code points, which strict UTF-8 decoding must reject. -/
def isSurrogate (n : Nat) : Bool := decide (0xD800 ≤ n) && decide (n < 0xE000)

/-- Tests for a UTF-8 continuation byte. -/
def utf8Cont (b : Nat) : Bool := decide (0x80 ≤ b) && decide (b < 0xC0)

/-- One step of strict UTF-8 decoding: given the lead byte and the bytes after
it, returns the decoded code point and how many continuation bytes were
consumed, or `none` for a malformed sequence (stray continuation byte,
truncated sequence, overlong form, surrogate, out-of-range value). -/
def utf8Step (b0 : Nat) (r : List Nat) : Option (Nat × Nat) :=
  if b0 < 0x80 then some (b0, 0)
  else if b0 < 0xC2 then none
  else if b0 < 0xE0 then
    match r with
    | b1 :: _ =>
      if utf8Cont b1 then some ((b0 - 0xC0) * 0x40 + (b1 - 0x80), 1) else none
    | [] => none
  else if b0 < 0xF0 then
    match r with
    | b1 :: b2 :: _ =>
      if utf8Cont b1 && utf8Cont b2 then
        if 0x800 ≤ (b0 - 0xE0) * 0x1000 + (b1 - 0x80) * 0x40 + (b2 - 0x80) ∧
            isSurrogate ((b0 - 0xE0) * 0x1000 + (b1 - 0x80) * 0x40 + (b2 - 0x80)) = false then
          some ((b0 - 0xE0) * 0x1000 + (b1 - 0x80) * 0x40 + (b2 - 0x80), 2)
        else none
      else none
    | _ => none
  else if b0 < 0xF5 then
    match r with
    | b1 :: b2 :: b3 :: _ =>
      if utf8Cont b1 && utf8Cont b2 && utf8Cont b3 then
        if 0x10000 ≤ (b0 - 0xF0) * 0x40000 + (b1 - 0x80) * 0x1000 + (b2 - 0x80) * 0x40 + (b3 - 0x80) ∧
            (b0 - 0xF0) * 0x40000 + (b1 - 0x80) * 0x1000 + (b2 - 0x80) * 0x40 + (b3 - 0x80) < 0x110000 then
          some ((b0 - 0xF0) * 0x40000 + (b1 - 0x80) * 0x1000 + (b2 - 0x80) * 0x40 + (b3 - 0x80), 3)
        else none
      else none
    | _ => none
  else none

/-- Strict UTF-8 decoding of a byte list (Python `bytes.decode("utf-8")`),
returning `none` on any malformed input. -/
def utf8Decode : List Nat → Option (List Char)
  | [] => some []
  | b0 :: r =>
    match utf8Step b0 r with
    | some p => (utf8Decode (r.drop p.2)).map (fun cs => Char.ofNat p.1 :: cs)
    | none => none
termination_by l => l.length
decreasing_by
  simp only [List.length_cons, List.length_drop]
  omega

/-! ### Base64 (Python `base64.b64encode` / `base64.b64decode`) -/

/-- The standard base64 alphabet. -/
def b64Alpha : List Char :=
  "ABCDEFGHIJKLMNOPQRSTUVWXYZabcdefghijklmnopqrstuvwxyz0123456789+/".data

/-- The alphabet character for a 6-bit value. -/
def b64Char (i : Nat) : Char := b64Alpha.getD i 'A'

/-- The 6-bit value of an alphabet character, `none` outside the alphabet. -/
def b64Index (c : Char) : Option Nat := b64Alpha.findIdx? (fun a => a = c)

/-- Models `base64.b64encode` on a byte string, as base64 characters. -/
def b64EncodeBytes : List Nat → List Char
  | b0 :: b1 :: b2 :: rest =>
    b64Char (b0 / 4) :: b64Char (b0 % 4 * 16 + b1 / 16) ::
      b64Char (b1 % 16 * 4 + b2 / 64) :: b64Char (b2 % 64) :: b64EncodeBytes rest
  | [b0, b1] => [b64Char (b0 / 4), b64Char (b0 % 4 * 16 + b1 / 16), b64Char (b1 % 16 * 4), '=']
  | [b0] => [b64Char (b0 / 4), b64Char (b0 % 4 * 16), '=', '=']
  | [] => []

/-- Decodes one 4-character base64 group: the decoded bytes, and whether the
group carried padding and must therefore be the final group. -/
def b64Quad (c0 c1 c2 c3 : Char) : Option (List Nat × Bool) :=
  match b64Index c0, b64Index c1 with
  | some i0, some i1 =>
    if c2 = '=' then
      if c3 = '=' then some ([i0 * 4 + i1 / 16], true) else none
    else
      match b64Index c2 with
      | some i2 =>
        if c3 = '=' then some ([i0 * 4 + i1 / 16, i1 % 16 * 16 + i2 / 4], true)
        else
          match b64Index c3 with
          | some i3 => some ([i0 * 4 + i1 / 16, i1 % 16 * 16 + i2 / 4, i2 % 4 * 64 + i3], false)
          | none => none
      | none => none
  | _, _ => none

/-- Decodes a sequence of 4-character base64 groups; padding ends the data. -/
def b64DecodeGroups : List Char → Option (List Nat)
  | c0 :: c1 :: c2 :: c3 :: rest =>
    match b64Quad c0 c1 c2 c3 with
    | some pr =>
      if pr.2 then (if rest = [] then some pr.1 else none)
      else (b64DecodeGroups rest).map (fun tl => pr.1 ++ tl)
    | none => none
  | [] => some []
  | _ => none

/-- Characters kept by `base64.b64decode` before decoding: alphabet and `=`. -/
def b64Keep (c : Char) : Bool := (b64Index c).isSome || c = '='

/-- Models `base64.b64decode` applied to a `str` (as `rf_fox.py` does): the
string must be pure ASCII, characters outside the base64 alphabet are
discarded, and the remaining length must be a multiple of 4, with padding
only at the end.  Any violation raises in Python; here that is `none`. -/
def b64decode (s : List Char) : Option (List Nat) :=
  if s.all (fun c => c.toNat < 0x80) then
    if (s.filter b64Keep).length % 4 = 0 then b64DecodeGroups (s.filter b64Keep) else none
  else none

/-! ### Cipher Pipeline (`encrypt_message` / `decrypt_message`, rf_fox.py 69-85)

The PyCryptodome objects `public_cipher`/`private_cipher` (`PKCS1_OAEP.new`)
are external library state, modelled by a `Cipher` parameter.  `enc` takes the
plaintext bytes and a randomness seed (OAEP draws fresh randomness on every
call; the seed is threaded through the program state and incremented per
call), returning the ciphertext bytes or `none`; `dec` inverts it. -/

/-- Model of the PKCS1_OAEP cipher pair built from the loaded RSA key. -/
structure Cipher where
  maxPayload : Nat
  enc : List Nat → Nat → Option (List Nat)
  dec : List Nat → Option (List Nat)

/-- The documented OAEP contract: a payload of valid bytes within the key's
bound encrypts successfully (to ciphertext bytes) under any randomness, an
oversized payload raises `ValueError` (modelled as `none`), and decryption
inverts encryption. -/
def CipherOK (C : Cipher) : Prop :=
  (∀ m r, (∀ b ∈ m, b < 256) → m.length ≤ C.maxPayload →
    ∃ ct, C.enc m r = some ct ∧ ∀ b ∈ ct, b < 256) ∧
  (∀ m r, C.maxPayload < m.length → C.enc m r = none) ∧
  (∀ m r ct, C.enc m r = some ct → C.dec ct = some m)

/-- Embeds `encrypt_message` (rf_fox.py 79-85): UTF-8 encode, OAEP-encrypt
with the current randomness, base64-encode; any cipher failure is caught and
becomes `None`. -/
def encrypt_message (C : Cipher) (message : String) (r : Nat) : Option String :=
  match C.enc (utf8Encode message) r with
  | some ct => some (String.mk (b64EncodeBytes ct))
  | none => none

/-- Embeds `decrypt_message` (rf_fox.py 69-76): base64-decode, OAEP-decrypt,
UTF-8 decode; any exception in any stage is caught and becomes `None`. -/
def decrypt_message (C : Cipher) (s : String) : Option String :=
  match b64decode s.data with
  | none => none
  | some bytes =>
    match C.dec bytes with
    | none => none
    | some pt =>
      match utf8Decode pt with
      | none => none
      | some cs => some (String.mk cs)

/-- A concrete cipher instance satisfying the OAEP contract, used to witness
the parametric theorems: it prepends one randomness byte to the payload
(OAEP is randomized) and enforces the 190-byte payload bound of a 2048-bit
key with SHA-256 OAEP. -/
def toyCipher : Cipher where
  maxPayload := 190
  enc := fun m r => if m.length ≤ 190 then some (r % 256 :: m) else none
  dec := fun c =>
    match c with
    | [] => none
    | _ :: m => some m

/-! ### Broadcast Operation (`/broadcast` route, rf_fox.py 203-235) -/

/-- Calls made to the pyfldigi transport client: `text.clear_tx()`,
`text.add_tx(...)` (carrying the queued text, possibly `None`), `main.tx()`. -/
inductive TEvent where
  | clearTx : TEvent
  | addTx : Option String → TEvent
  | tx : TEvent
deriving DecidableEq, Repr

/-- One entry of `messages["transmitted"]` (rf_fox.py 226-230). -/
structure MsgRecord where
  encrypted : Option String
  decrypted : String
  timestamp : String
deriving DecidableEq, Repr

/-- The observable state touched by `broadcast`: the trace of attempted
transport calls, the shared `messages["transmitted"]` log, and the randomness
counter consumed by OAEP encryption calls. -/
structure BState where
  events : List TEvent
  transmitted : List MsgRecord
  rng : Nat
deriving DecidableEq, Repr

/-- One transport call: the attempt is recorded in the event trace; the
transport behaviour `T` decides whether the call returns or raises. -/
def attemptT (T : TEvent → Bool) (e : TEvent) (s : BState) : Except BState BState :=
  if T e then .ok {s with events := s.events ++ [e]}
  else .error {s with events := s.events ++ [e]}

/-- The `clear_tx()` / `add_tx(queued)` / `main.tx()` call sequence both
branches of `broadcast` perform; an exception in any call aborts the rest. -/
def transmitSeq (T : TEvent → Bool) (queued : Option String) (s : BState) :
    Except BState BState :=
  match attemptT T .clearTx s with
  | .error sE => .error sE
  | .ok s1 =>
    match attemptT T (.addTx queued) s1 with
    | .error sE => .error sE
    | .ok s2 => attemptT T .tx s2

/-- The transport hand-off portion of `broadcast` (rf_fox.py 215-223):
in the unencrypted variant the raw message is queued; in the encrypted
variant the result of `encrypt_message` — possibly `None`, the code does not
check it — is handed to `add_tx`, consuming one unit of randomness. -/
def bTransmit (C : Cipher) (T : TEvent → Bool) (message choice : String) (s : BState) :
    Except BState BState :=
  if choice = "unencrypted" then transmitSeq T (some message) s
  else transmitSeq T (encrypt_message C message s.rng) {s with rng := s.rng + 1}

/-- The three observably distinct responses of the `/broadcast` route: the
success page, the specific "Message cannot be empty or too long!" page, and
the generic exception page from the route's `except` clause. -/
inductive BResult where
  | success : BResult
  | invalidMessage : BResult
  | exnError : BResult
deriving DecidableEq, Repr

/-- Embeds the `/broadcast` route (rf_fox.py 203-235).  Validation first
(empty or over-1024-character message), then the transport hand-off, then —
only if no exception occurred — the log append, whose `encrypted` field is a
second `encrypt_message` call when the choice is exactly `"encrypted"`. -/
def broadcast (C : Cipher) (T : TEvent → Bool) (message choice ts : String) (s : BState) :
    BResult × BState :=
  if message = "" ∨ 1024 < message.length then (.invalidMessage, s)
  else
    match bTransmit C T message choice s with
    | .error sE => (.exnError, sE)
    | .ok sT =>
      if choice = "encrypted" then
        (.success,
          { sT with
            rng := sT.rng + 1
            transmitted := sT.transmitted ++ [⟨encrypt_message C message sT.rng, message, ts⟩] })
      else
        (.success,
          { sT with
            transmitted := sT.transmitted ++ [⟨none, message, ts⟩] })

/-! ### Key Store: paths, filesystem and the settings route (rf_fox.py 13-16,
33-60, 280-322) -/

/-- Splits a path string into `/`-separated components. -/
def splitSlash : List Char → List (List Char)
  | [] => [[]]
  | c :: rest =>
    if c = '/' then [] :: splitSlash rest
    else
      match splitSlash rest with
      | g :: gs => (c :: g) :: gs
      | [] => [[c]]

/-- POSIX resolution of `.` and `..` in a component list — how the operating
system resolves the path strings the program builds with `os.path.join`. -/
def resolveComps (cs : List (List Char)) : List (List Char) :=
  cs.foldl (fun st c =>
    if c = ['.', '.'] then st.dropLast
    else if c = ['.'] ∨ c = [] then st
    else st ++ [c]) []

/-- The resolved location a path string refers to. -/
def resolvePath (s : String) : List (List Char) := resolveComps (splitSlash s.data)

/-- `KEY_DIR = os.path.expanduser("~/.rf_fox")` (rf_fox.py 13); the expanded
home-directory prefix is kept symbolic as the literal `~` component. -/
def KEY_DIR : String := "~/.rf_fox"

/-- rf_fox.py 14 (`os.path.join` of a relative name appends `/name`). -/
def PRIVATE_KEY_PATH : String := KEY_DIR ++ "/" ++ "private_key.pem"

/-- rf_fox.py 15. -/
def PUBLIC_KEY_PATH : String := KEY_DIR ++ "/" ++ "public_key.pem"

/-- rf_fox.py 16. -/
def PUBLIC_KEYS_DIR : String := KEY_DIR ++ "/" ++ "public_keys"

/-- A filesystem fragment: file contents keyed by resolved path. -/
abbrev FSys : Type := List (List (List Char) × String)

def fsGet (fs : FSys) (p : List (List Char)) : Option String :=
  match fs.find? (fun e => decide (e.1 = p)) with
  | some e => some e.2
  | none => none

/-- `open(path, "w")`: create or overwrite the file at the resolved path. -/
def fsSet (fs : FSys) (p : List (List Char)) (content : String) : FSys :=
  fs.filter (fun e => !(decide (e.1 = p))) ++ [(p, content)]

/-- `os.remove(path)`. -/
def fsRemove (fs : FSys) (p : List (List Char)) : FSys :=
  fs.filter (fun e => !(decide (e.1 = p)))

/-- Model of the PyCryptodome RSA key operations used by the Key Store:
`RSA.generate` consumes fresh randomness (a seed), the two `export_key`
calls serialize the private and the public half, and `RSA.import_key`
parses serialized key material or raises (`none`). -/
structure RSALib where
  generate : Nat → Nat
  exportPriv : Nat → String
  exportPub : Nat → String
  importKey : String → Option Nat

/-- Key-store state: the key directory's files plus the randomness source. -/
structure KStore where
  files : FSys
  seed : Nat
deriving DecidableEq, Repr

/-- Embeds `generate_rsa_keys` (rf_fox.py 33-46): generate a fresh key pair
and write both halves. -/
def generate_rsa_keys (L : RSALib) (st : KStore) : KStore :=
  { files := fsSet (fsSet st.files (resolvePath PRIVATE_KEY_PATH)
      (L.exportPriv (L.generate st.seed)))
      (resolvePath PUBLIC_KEY_PATH) (L.exportPub (L.generate st.seed)),
    seed := st.seed + 1 }

/-- The existence check and conditional generation opening `load_rsa_keys`
(rf_fox.py 51-52): `if not os.path.exists(PRIVATE_KEY_PATH) or not
os.path.exists(PUBLIC_KEY_PATH): generate_rsa_keys()`. -/
def ensure_keys (L : RSALib) (st : KStore) : KStore :=
  if (fsGet st.files (resolvePath PRIVATE_KEY_PATH)).isSome = false ∨
      (fsGet st.files (resolvePath PUBLIC_KEY_PATH)).isSome = false
  then generate_rsa_keys L st else st

/-- Embeds `load_rsa_keys` (rf_fox.py 49-60): generate whenever either
artifact is missing, then open and `RSA.import_key` both files; a missing
file or a parse failure raises (`.error`). -/
def load_rsa_keys (L : RSALib) (st : KStore) : Except Unit ((Nat × Nat) × KStore) :=
  match fsGet (ensure_keys L st).files (resolvePath PRIVATE_KEY_PATH),
      fsGet (ensure_keys L st).files (resolvePath PUBLIC_KEY_PATH) with
  | some privPem, some pubPem =>
    match L.importKey privPem, L.importKey pubPem with
    | some kpriv, some kpub => .ok ((kpriv, kpub), ensure_keys L st)
    | _, _ => .error ()
  | _, _ => .error ()

/-- ASCII whitespace, as stripped by Python `str.strip()`. -/
def isSpaceChar (c : Char) : Bool :=
  c = ' ' || c = '\t' || c = '\n' || c = '\r' || c = '\x0b' || c = '\x0c'

/-- Python `str.strip()`: removes leading and trailing whitespace. -/
def pyStrip (s : String) : String :=
  String.mk (((s.data.dropWhile isSpaceChar).reverse.dropWhile isSpaceChar).reverse)

/-- `os.path.join(PUBLIC_KEYS_DIR, f"{key_alias}.pem")` (rf_fox.py 302, 314). -/
def keyPathFor (keyAlias : String) : String := PUBLIC_KEYS_DIR ++ "/" ++ (keyAlias ++ ".pem")

/-- The log lines the settings route's key branches can emit. -/
inductive LogEntry where
  | keyImported : String → LogEntry
  | invalidKeyFmt : LogEntry
  | keyDeleted : String → LogEntry
  | keyNotFound : String → LogEntry
deriving DecidableEq, Repr

inductive ImportOutcome where
  | imported : ImportOutcome
  | invalidFormat : ImportOutcome
  | skipped : ImportOutcome
deriving DecidableEq, Repr

/-- Embeds the `import_key` branch of the settings route (rf_fox.py 298-309):
strip the alias and the key material; if both are non-empty, parse the key —
writing the file and logging on success, logging an error on a `ValueError`;
if either is empty the whole branch is skipped without any effect. -/
def import_key (L : RSALib) (fs : FSys) (rawAlias rawKey : String) :
    FSys × List LogEntry × ImportOutcome :=
  if (pyStrip rawAlias) ≠ "" ∧ (pyStrip rawKey) ≠ "" then
    match L.importKey (pyStrip rawKey) with
    | some _ =>
      (fsSet fs (resolvePath (keyPathFor (pyStrip rawAlias))) (pyStrip rawKey),
        [.keyImported (pyStrip rawAlias)], .imported)
    | none => (fs, [.invalidKeyFmt], .invalidFormat)
  else (fs, [], .skipped)

/-- Embeds the `delete_key` branch of the settings route (rf_fox.py 312-319). -/
def delete_key (fs : FSys) (rawAlias : String) : FSys × List LogEntry :=
  if (fsGet fs (resolvePath (keyPathFor (pyStrip rawAlias)))).isSome then
    (fsRemove fs (resolvePath (keyPathFor (pyStrip rawAlias))), [.keyDeleted (pyStrip rawAlias)])
  else (fs, [.keyNotFound (pyStrip rawAlias)])

/-- Python `key.replace(".pem", "")`: removes every non-overlapping
occurrence of `.pem`, scanning left to right. -/
def stripPem : List Char → List Char
  | '.' :: 'p' :: 'e' :: 'm' :: rest => stripPem rest
  | c :: rest => c :: stripPem rest
  | [] => []

/-- Whether `.pem` occurs as a substring. -/
def hasPem : List Char → Bool
  | '.' :: 'p' :: 'e' :: 'm' :: _ => true
  | _ :: rest => hasPem rest
  | [] => false

/-- Python `key.endswith(".pem")`. -/
def endsWithPem (l : List Char) : Bool :=
  decide (4 ≤ l.length) && decide (l.drop (l.length - 4) = ['.', 'p', 'e', 'm'])

/-- Embeds the stored-key listing (rf_fox.py 322), over the file names in the
public-keys directory:
`[key.replace(".pem", "") for key in os.listdir(PUBLIC_KEYS_DIR) if key.endswith(".pem")]`. -/
def stored_keys (files : List String) : List String :=
  (files.filter (fun k => endsWithPem k.data)).map (fun k => String.mk (stripPem k.data))

/-! ### Concrete instances used by witnesses -/

/-- A transport on which every call succeeds. -/
def alwaysT : TEvent → Bool := fun _ => true

/-- A transport on which every call raises. -/
def neverT : TEvent → Bool := fun _ => false

/-- A 191-character message: within the 1024-character broadcast bound but
over the 190-byte OAEP payload bound of `toyCipher`. -/
def msg191 : String := String.mk (List.replicate 191 'a')

/-- A 1025-character message, over the broadcast bound. -/
def msg1025 : String := String.mk (List.replicate 1025 'x')

/-- A concrete deterministic RSA-library model for witnesses. -/
def L0 : RSALib where
  generate := fun s => s
  exportPriv := fun _ => "PRIVPEM"
  exportPub := fun _ => "PUBPEM"
  importKey := fun s => some s.length

/-! ## Theorems -/

theorem utf8Decode_cons {b0 : Nat} {r : List Nat} {n k : Nat}
    (h : utf8Step b0 r = some (n, k)) :
    utf8Decode (b0 :: r) = (utf8Decode (r.drop k)).map (fun cs => Char.ofNat n :: cs) := by
  rw [utf8Decode.eq_def]
  simp only [h]

theorem utf8EncodeChar_lt_256 (n : Nat) (hn : n < 0x110000) :
    ∀ b ∈ utf8EncodeChar n, b < 256 := by
  intro b hb
  unfold utf8EncodeChar at hb
  split at hb
  · simp only [List.mem_singleton] at hb; omega
  · split at hb
    · simp only [List.mem_cons, List.not_mem_nil, or_false] at hb
      rcases hb with h | h <;> omega
    · split at hb
      · simp only [List.mem_cons, List.not_mem_nil, or_false] at hb
        rcases hb with h | h | h <;> omega
      · simp only [List.mem_cons, List.not_mem_nil, or_false] at hb
        rcases hb with h | h | h | h <;> omega

theorem utf8Encode_lt_256 (s : String) : ∀ b ∈ utf8Encode s, b < 256 := by
  intro b hb
  simp only [utf8Encode, List.mem_flatten, List.mem_map] at hb
  obtain ⟨l, ⟨c, _, rfl⟩, hbl⟩ := hb
  have hv : c.toNat < 0x110000 := by
    rcases c.valid with h | ⟨_, h⟩ <;> simpa [Char.toNat] using by omega
  exact utf8EncodeChar_lt_256 _ hv b hbl

/-- Decoding the encoding of one character prepends that character. -/
theorem utf8Decode_encodeChar (c : Char) (r : List Nat) :
    utf8Decode (utf8EncodeChar c.toNat ++ r) = (utf8Decode r).map (fun cs => c :: cs) := by
  have hval : c.toNat < 0xD800 ∨ (0xDFFF < c.toNat ∧ c.toNat < 0x110000) := by
    rcases c.valid with h | ⟨h1, h2⟩
    · left; simpa [Char.toNat] using h
    · right; constructor <;> simpa [Char.toNat] using ‹_›
  have hofn : Char.ofNat c.toNat = c := Char.ofNat_toNat c
  generalize hgen : c.toNat = n at hval hofn ⊢
  by_cases h1 : n < 0x80
  · have hstep : utf8Step n r = some (n, 0) := by
      unfold utf8Step
      rw [if_pos h1]
    rw [utf8EncodeChar, if_pos h1, List.cons_append, List.nil_append,
      utf8Decode_cons hstep, List.drop_zero, hofn]
  · by_cases h2 : n < 0x800
    · have hA1 : ¬ (0xC0 + n / 0x40 < 0x80) := by omega
      have hA2 : ¬ (0xC0 + n / 0x40 < 0xC2) := by omega
      have hA3 : 0xC0 + n / 0x40 < 0xE0 := by omega
      have hB : utf8Cont (0x80 + n % 0x40) = true := by
        simp only [utf8Cont, Bool.and_eq_true, decide_eq_true_eq]; omega
      have hv : (0xC0 + n / 0x40 - 0xC0) * 0x40 + (0x80 + n % 0x40 - 0x80) = n := by omega
      have hstep : utf8Step (0xC0 + n / 0x40) ((0x80 + n % 0x40) :: r) = some (n, 1) := by
        unfold utf8Step
        rw [if_neg hA1, if_neg hA2, if_pos hA3]
        simp only [hB, if_true, hv]
      rw [utf8EncodeChar, if_neg h1, if_pos h2]
      simp only [List.cons_append, List.nil_append]
      rw [utf8Decode_cons hstep, List.drop_succ_cons, List.drop_zero, hofn]
    · by_cases h3 : n < 0x10000
      · have hA1 : ¬ (0xE0 + n / 0x1000 < 0x80) := by omega
        have hA2 : ¬ (0xE0 + n / 0x1000 < 0xC2) := by omega
        have hA3 : ¬ (0xE0 + n / 0x1000 < 0xE0) := by omega
        have hA4 : 0xE0 + n / 0x1000 < 0xF0 := by omega
        have hB : (utf8Cont (0x80 + n / 0x40 % 0x40) && utf8Cont (0x80 + n % 0x40)) = true := by
          simp only [utf8Cont, Bool.and_eq_true, decide_eq_true_eq]; omega
        have hv : (0xE0 + n / 0x1000 - 0xE0) * 0x1000 + (0x80 + n / 0x40 % 0x40 - 0x80) * 0x40 +
            (0x80 + n % 0x40 - 0x80) = n := by omega
        have hrange : 0x800 ≤ n ∧ isSurrogate n = false := by
          refine ⟨by omega, ?_⟩
          simp only [isSurrogate, Bool.and_eq_false_iff, decide_eq_false_iff_not, not_le, not_lt]
          omega
        have hstep : utf8Step (0xE0 + n / 0x1000)
            ((0x80 + n / 0x40 % 0x40) :: (0x80 + n % 0x40) :: r) = some (n, 2) := by
          unfold utf8Step
          rw [if_neg hA1, if_neg hA2, if_neg hA3, if_pos hA4]
          simp only [hB, if_true, hv]
          rw [if_pos hrange]
        rw [utf8EncodeChar, if_neg h1, if_neg h2, if_pos h3]
        simp only [List.cons_append, List.nil_append]
        rw [utf8Decode_cons hstep, List.drop_succ_cons, List.drop_succ_cons,
          List.drop_zero, hofn]
      · have hA1 : ¬ (0xF0 + n / 0x40000 < 0x80) := by omega
        have hA2 : ¬ (0xF0 + n / 0x40000 < 0xC2) := by omega
        have hA3 : ¬ (0xF0 + n / 0x40000 < 0xE0) := by omega
        have hA4 : ¬ (0xF0 + n / 0x40000 < 0xF0) := by omega
        have hA5 : 0xF0 + n / 0x40000 < 0xF5 := by omega
        have hB : (utf8Cont (0x80 + n / 0x1000 % 0x40) && utf8Cont (0x80 + n / 0x40 % 0x40) &&
            utf8Cont (0x80 + n % 0x40)) = true := by
          simp only [utf8Cont, Bool.and_eq_true, decide_eq_true_eq]; omega
        have hv : (0xF0 + n / 0x40000 - 0xF0) * 0x40000 + (0x80 + n / 0x1000 % 0x40 - 0x80) * 0x1000 +
            (0x80 + n / 0x40 % 0x40 - 0x80) * 0x40 + (0x80 + n % 0x40 - 0x80) = n := by omega
        have hrange : 0x10000 ≤ n ∧ n < 0x110000 := by omega
        have hstep : utf8Step (0xF0 + n / 0x40000)
            ((0x80 + n / 0x1000 % 0x40) :: (0x80 + n / 0x40 % 0x40) :: (0x80 + n % 0x40) :: r) =
            some (n, 3) := by
          unfold utf8Step
          rw [if_neg hA1, if_neg hA2, if_neg hA3, if_neg hA4, if_pos hA5]
          simp only [hB, if_true, hv]
          rw [if_pos hrange]
        rw [utf8EncodeChar, if_neg h1, if_neg h2, if_neg h3]
        simp only [List.cons_append, List.nil_append]
        rw [utf8Decode_cons hstep, List.drop_succ_cons, List.drop_succ_cons,
          List.drop_succ_cons, List.drop_zero, hofn]

/-- UTF-8 round trip: decoding the encoding of a string recovers its characters. -/
theorem utf8Decode_utf8Encode (s : String) : utf8Decode (utf8Encode s) = some s.data := by
  suffices h : ∀ cs : List Char,
      utf8Decode ((cs.map (fun c => utf8EncodeChar c.toNat)).flatten) = some cs by
    simpa [utf8Encode] using h s.data
  intro cs
  induction cs with
  | nil => rw [utf8Decode.eq_def]; rfl
  | cons c rest ih =>
    simp only [List.map_cons, List.flatten_cons]
    rw [utf8Decode_encodeChar c, ih]
    rfl

theorem b64Index_b64Char : ∀ i < 64, b64Index (b64Char i) = some i := by decide

theorem b64Char_ne_pad : ∀ i < 64, ¬ (b64Char i = '=') := by decide

theorem b64Char_isSome (i : Nat) : (b64Index (b64Char i)).isSome = true := by
  by_cases h : i < 64
  · rw [b64Index_b64Char i h]; rfl
  · have hA : b64Char i = 'A' := by
      unfold b64Char
      apply List.getD_eq_default
      have hlen : b64Alpha.length = 64 := by decide
      omega
    rw [hA]
    decide

theorem b64Char_ascii_lt : ∀ i < 64, (b64Char i).toNat < 0x80 := by decide

theorem b64Char_ascii (i : Nat) : (b64Char i).toNat < 0x80 := by
  by_cases h : i < 64
  · exact b64Char_ascii_lt i h
  · have hA : b64Char i = 'A' := by
      unfold b64Char
      apply List.getD_eq_default
      have hlen : b64Alpha.length = 64 := by decide
      omega
    rw [hA]
    decide

theorem b64Keep_b64Char (i : Nat) : b64Keep (b64Char i) = true := by
  simp only [b64Keep, b64Char_isSome, Bool.true_or]

theorem b64EncodeBytes_length (bs : List Nat) : (b64EncodeBytes bs).length % 4 = 0 := by
  induction bs using b64EncodeBytes.induct with
  | case1 b0 b1 b2 rest ih =>
    simp only [b64EncodeBytes, List.length_cons]
    omega
  | case2 b0 b1 => simp [b64EncodeBytes]
  | case3 b0 => simp [b64EncodeBytes]
  | case4 => rfl

theorem b64EncodeBytes_keep (bs : List Nat) : ∀ c ∈ b64EncodeBytes bs, b64Keep c = true := by
  induction bs using b64EncodeBytes.induct with
  | case1 b0 b1 b2 rest ih =>
    intro c hc
    simp only [b64EncodeBytes, List.mem_cons] at hc
    rcases hc with rfl | rfl | rfl | rfl | h
    · exact b64Keep_b64Char _
    · exact b64Keep_b64Char _
    · exact b64Keep_b64Char _
    · exact b64Keep_b64Char _
    · exact ih c h
  | case2 b0 b1 =>
    intro c hc
    simp only [show b64EncodeBytes [b0, b1] = [b64Char (b0 / 4), b64Char (b0 % 4 * 16 + b1 / 16),
        b64Char (b1 % 16 * 4), '='] from rfl, List.mem_cons, List.not_mem_nil, or_false] at hc
    rcases hc with rfl | rfl | rfl | rfl
    · exact b64Keep_b64Char _
    · exact b64Keep_b64Char _
    · exact b64Keep_b64Char _
    · decide
  | case3 b0 =>
    intro c hc
    simp only [show b64EncodeBytes [b0] = [b64Char (b0 / 4), b64Char (b0 % 4 * 16), '=', '='] from
        rfl, List.mem_cons, List.not_mem_nil, or_false] at hc
    rcases hc with rfl | rfl | rfl | rfl
    · exact b64Keep_b64Char _
    · exact b64Keep_b64Char _
    · decide
    · decide
  | case4 => intro c hc; exact absurd hc (List.not_mem_nil c)

theorem b64EncodeBytes_ascii (bs : List Nat) :
    ∀ c ∈ b64EncodeBytes bs, c.toNat < 0x80 := by
  induction bs using b64EncodeBytes.induct with
  | case1 b0 b1 b2 rest ih =>
    intro c hc
    simp only [b64EncodeBytes, List.mem_cons] at hc
    rcases hc with rfl | rfl | rfl | rfl | h
    · exact b64Char_ascii _
    · exact b64Char_ascii _
    · exact b64Char_ascii _
    · exact b64Char_ascii _
    · exact ih c h
  | case2 b0 b1 =>
    intro c hc
    simp only [show b64EncodeBytes [b0, b1] = [b64Char (b0 / 4), b64Char (b0 % 4 * 16 + b1 / 16),
        b64Char (b1 % 16 * 4), '='] from rfl, List.mem_cons, List.not_mem_nil, or_false] at hc
    rcases hc with rfl | rfl | rfl | rfl
    · exact b64Char_ascii _
    · exact b64Char_ascii _
    · exact b64Char_ascii _
    · decide
  | case3 b0 =>
    intro c hc
    simp only [show b64EncodeBytes [b0] = [b64Char (b0 / 4), b64Char (b0 % 4 * 16), '=', '='] from
        rfl, List.mem_cons, List.not_mem_nil, or_false] at hc
    rcases hc with rfl | rfl | rfl | rfl
    · exact b64Char_ascii _
    · exact b64Char_ascii _
    · decide
    · decide
  | case4 => intro c hc; exact absurd hc (List.not_mem_nil c)

theorem b64DecodeGroups_encode (bs : List Nat) (h : ∀ b ∈ bs, b < 256) :
    b64DecodeGroups (b64EncodeBytes bs) = some bs := by
  induction bs using b64EncodeBytes.induct with
  | case1 b0 b1 b2 rest ih =>
    have h0 : b0 < 256 := h b0 (by simp)
    have h1 : b1 < 256 := h b1 (by simp)
    have h2 : b2 < 256 := h b2 (by simp)
    have i0 : b64Index (b64Char (b0 / 4)) = some (b0 / 4) := b64Index_b64Char _ (by omega)
    have i1 : b64Index (b64Char (b0 % 4 * 16 + b1 / 16)) = some (b0 % 4 * 16 + b1 / 16) :=
      b64Index_b64Char _ (by omega)
    have i2 : b64Index (b64Char (b1 % 16 * 4 + b2 / 64)) = some (b1 % 16 * 4 + b2 / 64) :=
      b64Index_b64Char _ (by omega)
    have i3 : b64Index (b64Char (b2 % 64)) = some (b2 % 64) := b64Index_b64Char _ (by omega)
    have ne2 : ¬ (b64Char (b1 % 16 * 4 + b2 / 64) = '=') := b64Char_ne_pad _ (by omega)
    have ne3 : ¬ (b64Char (b2 % 64) = '=') := b64Char_ne_pad _ (by omega)
    have e0 : b0 / 4 * 4 + (b0 % 4 * 16 + b1 / 16) / 16 = b0 := by omega
    have e1 : (b0 % 4 * 16 + b1 / 16) % 16 * 16 + (b1 % 16 * 4 + b2 / 64) / 4 = b1 := by omega
    have e2 : (b1 % 16 * 4 + b2 / 64) % 4 * 64 + b2 % 64 = b2 := by omega
    have hquad : b64Quad (b64Char (b0 / 4)) (b64Char (b0 % 4 * 16 + b1 / 16))
        (b64Char (b1 % 16 * 4 + b2 / 64)) (b64Char (b2 % 64)) = some ([b0, b1, b2], false) := by
      unfold b64Quad
      rw [i0, i1]
      simp only [if_neg ne2, i2, if_neg ne3, i3, e0, e1, e2]
    simp only [b64EncodeBytes]
    rw [b64DecodeGroups.eq_def]
    simp only [hquad, Bool.false_eq_true, if_false]
    rw [ih (fun b hb => h b (by simp [hb]))]
    rfl
  | case2 b0 b1 =>
    have h0 : b0 < 256 := h b0 (by simp)
    have h1 : b1 < 256 := h b1 (by simp)
    have i0 : b64Index (b64Char (b0 / 4)) = some (b0 / 4) := b64Index_b64Char _ (by omega)
    have i1 : b64Index (b64Char (b0 % 4 * 16 + b1 / 16)) = some (b0 % 4 * 16 + b1 / 16) :=
      b64Index_b64Char _ (by omega)
    have i2 : b64Index (b64Char (b1 % 16 * 4)) = some (b1 % 16 * 4) := b64Index_b64Char _ (by omega)
    have ne2 : ¬ (b64Char (b1 % 16 * 4) = '=') := b64Char_ne_pad _ (by omega)
    have e0 : b0 / 4 * 4 + (b0 % 4 * 16 + b1 / 16) / 16 = b0 := by omega
    have e1 : (b0 % 4 * 16 + b1 / 16) % 16 * 16 + b1 % 16 * 4 / 4 = b1 := by omega
    have hquad : b64Quad (b64Char (b0 / 4)) (b64Char (b0 % 4 * 16 + b1 / 16))
        (b64Char (b1 % 16 * 4)) '=' = some ([b0, b1], true) := by
      unfold b64Quad
      rw [i0, i1]
      simp [if_neg ne2, i2, e0]
      omega
    simp only [b64EncodeBytes]
    rw [b64DecodeGroups.eq_def]
    simp [hquad]
  | case3 b0 =>
    have h0 : b0 < 256 := h b0 (by simp)
    have i0 : b64Index (b64Char (b0 / 4)) = some (b0 / 4) := b64Index_b64Char _ (by omega)
    have i1 : b64Index (b64Char (b0 % 4 * 16)) = some (b0 % 4 * 16) := b64Index_b64Char _ (by omega)
    have e0 : b0 / 4 * 4 + b0 % 4 * 16 / 16 = b0 := by omega
    have hquad : b64Quad (b64Char (b0 / 4)) (b64Char (b0 % 4 * 16)) '=' '=' =
        some ([b0], true) := by
      unfold b64Quad
      rw [i0, i1]
      simp
      omega
    simp only [b64EncodeBytes]
    rw [b64DecodeGroups.eq_def]
    simp [hquad]
  | case4 => rfl

/-- Base64 round trip on byte strings. -/
theorem b64decode_b64EncodeBytes (bs : List Nat) (h : ∀ b ∈ bs, b < 256) :
    b64decode (b64EncodeBytes bs) = some bs := by
  unfold b64decode
  have hascii : (b64EncodeBytes bs).all (fun c => decide (c.toNat < 0x80)) = true := by
    rw [List.all_eq_true]
    intro c hc
    simpa using b64EncodeBytes_ascii bs c hc
  have hfilter : (b64EncodeBytes bs).filter b64Keep = b64EncodeBytes bs :=
    List.filter_eq_self.mpr (b64EncodeBytes_keep bs)
  rw [hascii, if_pos rfl, hfilter, if_pos (b64EncodeBytes_length bs), b64DecodeGroups_encode bs h]

theorem toyCipher_ok : CipherOK toyCipher := by
  refine ⟨?_, ?_, ?_⟩
  · intro m r hb hlen
    simp only [toyCipher] at hlen
    refine ⟨r % 256 :: m, ?_, ?_⟩
    · simp only [toyCipher, if_pos hlen]
    · intro b hbm
      rcases List.mem_cons.mp hbm with rfl | h
      · omega
      · exact hb b h
  · intro m r hlen
    simp only [toyCipher] at hlen ⊢
    rw [if_neg (by omega)]
  · intro m r ct henc
    simp only [toyCipher] at henc ⊢
    split at henc
    · cases henc; rfl
    · cases henc

/-- The cipher pipeline round trip, at the level of the two source functions. -/
theorem decrypt_encrypt_roundtrip (C : Cipher) (hC : CipherOK C) (p : String) (r : Nat)
    (hlen : (utf8Encode p).length ≤ C.maxPayload) :
    ∃ ct, encrypt_message C p r = some ct ∧ decrypt_message C ct = some p := by
  obtain ⟨henc, _, hdec⟩ := hC
  obtain ⟨ct, hct, hctb⟩ := henc (utf8Encode p) r (utf8Encode_lt_256 p) hlen
  refine ⟨String.mk (b64EncodeBytes ct), ?_, ?_⟩
  · unfold encrypt_message
    rw [hct]
  · unfold decrypt_message
    have hb64 : b64decode (String.mk (b64EncodeBytes ct)).data = some ct :=
      b64decode_b64EncodeBytes ct hctb
    simp only [hb64, hdec _ _ _ hct, utf8Decode_utf8Encode p]

/-! ### Helper lemmas about paths and the listing -/

theorem splitSlash_cons (c : Char) (rest : List Char) :
    splitSlash (c :: rest) =
      if c = '/' then [] :: splitSlash rest
      else
        match splitSlash rest with
        | g :: gs => (c :: g) :: gs
        | [] => [[c]] := by
  rw [splitSlash.eq_def]

theorem splitSlash_ne_nil (l : List Char) : splitSlash l ≠ [] := by
  cases l with
  | nil => simp [splitSlash]
  | cons c rest =>
    rw [splitSlash_cons]
    by_cases hc : c = '/'
    · simp [if_pos hc]
    · cases hsp : splitSlash rest with
      | nil => simp [if_neg hc, hsp]
      | cons g gs => simp [if_neg hc, hsp]

theorem splitSlash_append (xs ys : List Char) :
    splitSlash (xs ++ '/' :: ys) = splitSlash xs ++ splitSlash ys := by
  induction xs with
  | nil =>
    rw [List.nil_append, splitSlash_cons, if_pos rfl]
    simp [splitSlash]
  | cons c rest ih =>
    by_cases hc : c = '/'
    · subst hc
      rw [List.cons_append, splitSlash_cons, if_pos rfl, ih, splitSlash_cons, if_pos rfl]
      simp
    · rw [List.cons_append, splitSlash_cons, if_neg hc, ih, splitSlash_cons, if_neg hc]
      cases hsp : splitSlash rest with
      | nil => exact absurd hsp (splitSlash_ne_nil rest)
      | cons g gs => simp

theorem splitSlash_no_slash (l : List Char) (h : ∀ c ∈ l, c ≠ '/') :
    splitSlash l = [l] := by
  induction l with
  | nil => rfl
  | cons c rest ih =>
    rw [splitSlash_cons, if_neg (h c (by simp)), ih (fun x hx => h x (by simp [hx]))]

/-- Resolving a path that ends in one ordinary file component appends it. -/
theorem resolveComps_append_file (cs : List (List Char)) (c : List Char)
    (h1 : c ≠ ['.', '.']) (h2 : c ≠ ['.']) (h3 : c ≠ []) :
    resolveComps (cs ++ [c]) = resolveComps cs ++ [c] := by
  unfold resolveComps
  rw [List.foldl_append]
  simp [h1, h2, h3]

/-- The resolved location of the key file written for a slash-free alias:
directly inside the public-keys directory, named `<alias>.pem`. -/
theorem keyPath_resolve (a : String) (hsafe : ∀ c ∈ a.data, c ≠ '/') :
    resolvePath (keyPathFor a) =
      resolvePath PUBLIC_KEYS_DIR ++ [a.data ++ ['.', 'p', 'e', 'm']] := by
  have hdata : (keyPathFor a).data =
      PUBLIC_KEYS_DIR.data ++ '/' :: (a.data ++ ['.', 'p', 'e', 'm']) := by
    show (PUBLIC_KEYS_DIR ++ "/" ++ (a ++ ".pem")).data = _
    rw [String.data_append, String.data_append, String.data_append]
    simp
  unfold resolvePath
  rw [hdata, splitSlash_append]
  have hns : splitSlash (a.data ++ ['.', 'p', 'e', 'm']) = [a.data ++ ['.', 'p', 'e', 'm']] := by
    apply splitSlash_no_slash
    intro c hc
    rcases List.mem_append.mp hc with h | h
    · exact hsafe c h
    · fin_cases h <;> decide
  rw [hns]
  apply resolveComps_append_file
  · intro heq
    have := congrArg List.length heq
    simp at this
  · intro heq
    have := congrArg List.length heq
    simp at this
  · intro heq
    have := congrArg List.length heq
    simp at this

theorem hasPem_cons_false {c : Char} {rest : List Char} (h : hasPem (c :: rest) = false) :
    hasPem rest = false := by
  rw [hasPem.eq_def] at h
  split at h
  · exact absurd h (by simp)
  · rename_i c' rest' heq
    injection heq with h1 h2
    rwa [h2]
  · simp_all

/-- Removing `.pem` occurrences from `a ++ ".pem"` gives back `a` whenever
`a` itself contains no `.pem` substring (no occurrence can straddle the
boundary, since an occurrence would have to end in `m`). -/
theorem stripPem_append (a : List Char) (h : hasPem a = false) :
    stripPem (a ++ ['.', 'p', 'e', 'm']) = a := by
  induction a with
  | nil => rfl
  | cons c rest ih =>
    rw [List.cons_append, stripPem.eq_def]
    split
    · rename_i rest' heq
      exfalso
      injection heq with hc htail
      subst hc
      match rest, htail with
      | [], htail => injection htail with h1 _; exact absurd h1 (by decide)
      | [x], htail =>
        injection htail with h1 htail; injection htail with h2 _
        exact absurd h2 (by decide)
      | [x, y], htail =>
        injection htail with h1 htail; injection htail with h2 htail
        injection htail with h3 _
        exact absurd h3 (by decide)
      | x :: y :: z :: rest3, htail =>
        injection htail with h1 htail; injection htail with h2 htail
        injection htail with h3 _
        subst h1; subst h2; subst h3
        exact absurd h (by rw [hasPem.eq_def]; simp)
    · rename_i c' rest' heq
      injection heq with h1 h2
      subst h1
      rw [h2.symm] at *
      rw [ih (hasPem_cons_false h)]
    · rename_i heq
      exact absurd heq (by simp)

theorem endsWithPem_append (a : List Char) :
    endsWithPem (a ++ ['.', 'p', 'e', 'm']) = true := by
  unfold endsWithPem
  have hlen : (a ++ ['.', 'p', 'e', 'm']).length = a.length + 4 := by simp
  rw [hlen]
  have hdrop : (a ++ ['.', 'p', 'e', 'm']).drop (a.length + 4 - 4) = ['.', 'p', 'e', 'm'] := by
    have h4 : a.length + 4 - 4 = a.length := by omega
    rw [h4, List.drop_left]
  rw [hdrop]
  simp

/-! ### Behaviour of the transport hand-off -/

/-- Either all three transport calls return — recording exactly the hand-off
event sequence, leaving the log and randomness untouched — or some call
raises, leaving the log and randomness untouched in the raising state. -/
theorem transmitSeq_spec (T : TEvent → Bool) (queued : Option String) (s : BState) :
    (transmitSeq T queued s =
      .ok { s with events := s.events ++ [.clearTx, .addTx queued, .tx] }) ∨
    (∃ sE, transmitSeq T queued s = .error sE ∧
      sE.transmitted = s.transmitted ∧ sE.rng = s.rng) := by
  by_cases h1 : T .clearTx
  · by_cases h2 : T (.addTx queued)
    · by_cases h3 : T .tx
      · left
        simp [transmitSeq, attemptT, h1, h2, h3]
      · right
        exact ⟨{ s with events := s.events ++ [.clearTx, .addTx queued, .tx] },
          by simp [transmitSeq, attemptT, h1, h2, h3], rfl, rfl⟩
    · right
      exact ⟨{ s with events := s.events ++ [.clearTx, .addTx queued] },
        by simp [transmitSeq, attemptT, h1, h2], rfl, rfl⟩
  · right
    exact ⟨{ s with events := s.events ++ [.clearTx] },
      by simp [transmitSeq, attemptT, h1], rfl, rfl⟩

theorem msg1025_length : msg1025.length = 1025 := by
  simp [msg1025, String.length]

/-! ### Claims about the Broadcast Operation -/

/-- Claim C7: a broadcast whose message is empty or longer than 1024
characters fails with `InvalidMessage` (the dedicated error page), makes no
transport call, and appends nothing to the transmitted log — the state is
returned unchanged. -/
theorem C7_invalid_message (C : Cipher) (T : TEvent → Bool) (message choice ts : String)
    (s : BState) (h : message = "" ∨ 1024 < message.length) :
    broadcast C T message choice ts s = (.invalidMessage, s) := by
  unfold broadcast
  rw [if_pos h]

/-- Witness for C7 at the two inputs named by the spec:
`broadcast("", true)` and `broadcast("x"*1025, true)`. -/
theorem C7_invalid_message_witness :
    (("" : String) = "" ∨ 1024 < ("" : String).length) ∧
    broadcast toyCipher alwaysT "" "encrypted" "ts" ⟨[], [], 0⟩ =
      (.invalidMessage, ⟨[], [], 0⟩) ∧
    (msg1025 = "" ∨ 1024 < msg1025.length) ∧
    broadcast toyCipher alwaysT msg1025 "encrypted" "ts" ⟨[], [], 0⟩ =
      (.invalidMessage, ⟨[], [], 0⟩) :=
  ⟨Or.inl rfl,
    C7_invalid_message toyCipher alwaysT "" "encrypted" "ts" ⟨[], [], 0⟩ (Or.inl rfl),
    Or.inr (by rw [msg1025_length]; omega),
    C7_invalid_message toyCipher alwaysT msg1025 "encrypted" "ts" ⟨[], [], 0⟩
      (Or.inr (by rw [msg1025_length]; omega))⟩

/-- Claim C8: for every valid broadcast call, either every transport call
succeeded — and then the result is success, the event trace was extended by
exactly the hand-off sequence, and exactly one record was appended — or some
transport call raised, and then the operation fails with the error page
(`TransmitError` in the spec's taxonomy) and the transmitted log is
unchanged.  In particular the hand-off always completes strictly before any
log append, and a transport failure leaves the log untouched. -/
theorem C8_transport_before_log (C : Cipher) (T : TEvent → Bool)
    (message choice ts : String) (s : BState) (res : BResult) (s1 : BState)
    (hvalid : ¬ (message = "" ∨ 1024 < message.length))
    (hrun : broadcast C T message choice ts s = (res, s1)) :
    (res = .success ∧ (∃ em, s1.events = s.events ++ [.clearTx, .addTx em, .tx]) ∧
      ∃ rc, s1.transmitted = s.transmitted ++ [rc]) ∨
    (res = .exnError ∧ s1.transmitted = s.transmitted) := by
  unfold broadcast bTransmit at hrun
  rw [if_neg hvalid] at hrun
  by_cases hch : choice = "unencrypted"
  · subst hch
    rw [if_pos rfl] at hrun
    rcases transmitSeq_spec T (some message) s with hok | ⟨sE, herr, htr, _⟩
    · simp only [hok] at hrun
      rw [if_neg (by decide : ¬ (("unencrypted" : String) = "encrypted"))] at hrun
      injection hrun with h1 h2
      subst h1
      subst h2
      left
      exact ⟨rfl, ⟨some message, rfl⟩, ⟨_, rfl⟩⟩
    · simp only [herr] at hrun
      injection hrun with h1 h2
      subst h1
      subst h2
      right
      exact ⟨rfl, htr⟩
  · rw [if_neg hch] at hrun
    rcases transmitSeq_spec T (encrypt_message C message s.rng) {s with rng := s.rng + 1}
      with hok | ⟨sE, herr, htr, _⟩
    · simp only [hok] at hrun
      by_cases hce : choice = "encrypted"
      · subst hce
        rw [if_pos rfl] at hrun
        injection hrun with h1 h2
        subst h1
        subst h2
        left
        exact ⟨rfl, ⟨encrypt_message C message s.rng, rfl⟩, ⟨_, rfl⟩⟩
      · rw [if_neg hce] at hrun
        injection hrun with h1 h2
        subst h1
        subst h2
        left
        exact ⟨rfl, ⟨encrypt_message C message s.rng, rfl⟩, ⟨_, rfl⟩⟩
    · simp only [herr] at hrun
      injection hrun with h1 h2
      subst h1
      subst h2
      right
      exact ⟨rfl, htr⟩

/-- Witness for C8: a concrete broadcast on a transport whose first call
raises, landing in the failure disjunct with the log unchanged. -/
theorem C8_transport_before_log_witness :
    (¬ (("m" : String) = "" ∨ 1024 < ("m" : String).length)) ∧
    broadcast toyCipher neverT "m" "encrypted" "ts" ⟨[], [], 0⟩ =
      (.exnError, ⟨[.clearTx], [], 1⟩) ∧
    ((BResult.exnError = .success ∧
        (∃ em, ([TEvent.clearTx] : List TEvent) = [] ++ [.clearTx, .addTx em, .tx]) ∧
        (∃ rc, ([] : List MsgRecord) = [] ++ [rc])) ∨
      (BResult.exnError = .exnError ∧ ([] : List MsgRecord) = [])) :=
  ⟨by decide, by decide,
    C8_transport_before_log toyCipher neverT "m" "encrypted" "ts" ⟨[], [], 0⟩ .exnError
      ⟨[.clearTx], [], 1⟩ (by decide) (by decide)⟩

/-- Claim C1 (code-bug evidence): with a healthy transport and a message
whose UTF-8 encoding exceeds the cipher's payload bound, `encrypt_message`
fails (returns `None`) — yet `broadcast` still performs all three transport
calls, handing `None` to `add_tx`, reports success, and appends a record with
no ciphertext, instead of failing with `EncryptionError` and transmitting
nothing. -/
theorem C1_encryption_failure_reaches_transport :
    encrypt_message toyCipher msg191 0 = none ∧
    broadcast toyCipher alwaysT msg191 "encrypted" "ts" ⟨[], [], 0⟩ =
      (.success, ⟨[.clearTx, .addTx none, .tx], [⟨none, msg191, "ts"⟩], 2⟩) := by
  constructor
  · decide
  · decide

/-- Counterexample for C2 as stated: in a successful encrypted broadcast the
ciphertext handed to `add_tx` (`"AGhp"`, encrypted with the first unit of
randomness) differs from the `encrypted` field of the logged record
(`"AWhp"`, a second, independent encryption). -/
theorem C2_counterexample :
    broadcast toyCipher alwaysT "hi" "encrypted" "ts" ⟨[], [], 0⟩ =
      (.success, ⟨[.clearTx, .addTx (some "AGhp"), .tx], [⟨some "AWhp", "hi", "ts"⟩], 2⟩) ∧
    ("AGhp" : String) ≠ "AWhp" := by
  constructor
  · decide
  · decide

/-- Claim C2 (amended): for every successful encrypted broadcast of a message
within the cipher's payload bound, the appended record's `decrypted` field is
the original message and its `encrypted` field holds a ciphertext that
decrypts back to that message — produced by a second, independent
`encrypt_message` call, not necessarily equal to the ciphertext handed to the
transport. -/
theorem C2_amended_log_decrypts (C : Cipher) (hC : CipherOK C) (T : TEvent → Bool)
    (message ts : String) (s : BState) (res : BResult) (s1 : BState)
    (hlen : (utf8Encode message).length ≤ C.maxPayload)
    (hrun : broadcast C T message "encrypted" ts s = (res, s1))
    (hres : res = .success) :
    ∃ ct, s1.transmitted = s.transmitted ++ [⟨some ct, message, ts⟩] ∧
      decrypt_message C ct = some message := by
  subst hres
  unfold broadcast bTransmit at hrun
  by_cases hv : message = "" ∨ 1024 < message.length
  · rw [if_pos hv] at hrun
    injection hrun with h1 _
    exact absurd h1 (by decide)
  · rw [if_neg hv, if_neg (by decide : ¬ (("encrypted" : String) = "unencrypted"))] at hrun
    rcases transmitSeq_spec T (encrypt_message C message s.rng) {s with rng := s.rng + 1}
      with hok | ⟨sE, herr, _, _⟩
    · simp only [hok, if_true] at hrun
      injection hrun with h1 h2
      obtain ⟨ct, hct, hdec⟩ := decrypt_encrypt_roundtrip C hC message (s.rng + 1) hlen
      refine ⟨ct, ?_, hdec⟩
      rw [← h2]
      show s.transmitted ++ [⟨encrypt_message C message (s.rng + 1), message, ts⟩] =
        s.transmitted ++ [⟨some ct, message, ts⟩]
      rw [hct]
    · simp only [herr] at hrun
      injection hrun with h1 _
      exact absurd h1 (by decide)

/-- Witness for the amended C2 on a concrete run. -/
theorem C2_amended_log_decrypts_witness :
    CipherOK toyCipher ∧
    (utf8Encode "hi").length ≤ toyCipher.maxPayload ∧
    broadcast toyCipher alwaysT "hi" "encrypted" "ts" ⟨[], [], 0⟩ =
      (.success, ⟨[.clearTx, .addTx (some "AGhp"), .tx], [⟨some "AWhp", "hi", "ts"⟩], 2⟩) ∧
    (∃ ct, ([⟨some "AWhp", "hi", "ts"⟩] : List MsgRecord) = [] ++ [⟨some ct, "hi", "ts"⟩] ∧
      decrypt_message toyCipher ct = some "hi") :=
  ⟨toyCipher_ok, by decide, by decide,
    C2_amended_log_decrypts toyCipher toyCipher_ok alwaysT "hi" "ts" ⟨[], [], 0⟩ .success
      ⟨[.clearTx, .addTx (some "AGhp"), .tx], [⟨some "AWhp", "hi", "ts"⟩], 2⟩ (by decide)
      (by decide) rfl⟩

/-! ### Claims about the Cipher Pipeline -/

/-- Claim C5: for every plaintext whose UTF-8 encoding is within the key's
maximum OAEP payload, decryption inverts encryption at the level of the two
source functions, base64 and UTF-8 encodings included. -/
theorem C5_decrypt_encrypt (C : Cipher) (hC : CipherOK C) (p : String) (r : Nat)
    (hlen : (utf8Encode p).length ≤ C.maxPayload) :
    ∃ ct, encrypt_message C p r = some ct ∧ decrypt_message C ct = some p :=
  decrypt_encrypt_roundtrip C hC p r hlen

theorem C5_decrypt_encrypt_witness :
    CipherOK toyCipher ∧ (utf8Encode "hello").length ≤ toyCipher.maxPayload ∧
    ∃ ct, encrypt_message toyCipher "hello" 0 = some ct ∧
      decrypt_message toyCipher ct = some "hello" :=
  ⟨toyCipher_ok, by decide, C5_decrypt_encrypt toyCipher toyCipher_ok "hello" 0 (by decide)⟩

/-- Claim C6: `decrypt_message` returns `None` — it never raises to its
caller — whenever the input is not validly base64-encoded, or the decoded
ciphertext is rejected by the cipher (invalid length for the key or failed
padding verification). -/
theorem C6_decrypt_failure_none (C : Cipher) (s : String)
    (h : b64decode s.data = none ∨ ∀ bs, b64decode s.data = some bs → C.dec bs = none) :
    decrypt_message C s = none := by
  unfold decrypt_message
  rcases h with h | h
  · rw [h]
  · cases hb : b64decode s.data with
    | none => rfl
    | some bs => simp only [h bs hb]

theorem C6_decrypt_failure_none_witness :
    (b64decode ("ab" : String).data = none ∨
      ∀ bs, b64decode ("ab" : String).data = some bs → toyCipher.dec bs = none) ∧
    decrypt_message toyCipher "ab" = none :=
  ⟨Or.inl (by decide), C6_decrypt_failure_none toyCipher "ab" (Or.inl (by decide))⟩

/-! ### Claims about the Key Store -/

/-- Counterexample for C3 as stated: the alias `"../private_key"` is accepted
(non-empty after trimming), yet the file path it produces resolves to the
identity's `private_key.pem`, outside the public-keys subdirectory — and a
`delete_key` call with that alias removes the private-key artifact. -/
theorem C3_counterexample :
    (pyStrip "../private_key") ≠ "" ∧
    resolvePath (keyPathFor "../private_key") = resolvePath PRIVATE_KEY_PATH ∧
    (resolvePath PUBLIC_KEYS_DIR).isPrefixOf (resolvePath (keyPathFor "../private_key")) = false ∧
    delete_key [(resolvePath PRIVATE_KEY_PATH, "PEM")] "../private_key" =
      ([], [.keyDeleted "../private_key"]) := by
  refine ⟨by decide, by decide, by decide, by decide⟩

/-- Claim C3 (amended): for every accepted alias whose trimmed form contains
no path separator, the import performs exactly one file write, whose resolved
location is the file `<alias>.pem` directly inside the public-keys
subdirectory.  (Aliases containing `/` — e.g. `"../private_key"` — escape the
subdirectory, see the counterexample.) -/
theorem C3_import_path_safe (rawAlias rawKey : String) (L : RSALib) (fs : FSys) (k : Nat)
    (hAlias : (pyStrip rawAlias) ≠ "") (hSafe : ∀ c ∈ (pyStrip rawAlias).data, c ≠ '/')
    (hKey : (pyStrip rawKey) ≠ "") (hParse : L.importKey (pyStrip rawKey) = some k) :
    import_key L fs rawAlias rawKey =
      (fsSet fs (resolvePath PUBLIC_KEYS_DIR ++ [(pyStrip rawAlias).data ++ ['.', 'p', 'e', 'm']])
        (pyStrip rawKey), [.keyImported (pyStrip rawAlias)], .imported) := by
  unfold import_key
  rw [if_pos ⟨hAlias, hKey⟩]
  simp only [hParse]
  rw [keyPath_resolve (pyStrip rawAlias) hSafe]

theorem C3_import_path_safe_witness :
    (pyStrip "bob") ≠ "" ∧ (∀ c ∈ (pyStrip "bob").data, c ≠ '/') ∧
    (pyStrip " K ") ≠ "" ∧ L0.importKey (pyStrip " K ") = some 1 ∧
    import_key L0 [] "bob" " K " =
      (fsSet [] (resolvePath PUBLIC_KEYS_DIR ++ [(pyStrip "bob").data ++ ['.', 'p', 'e', 'm']])
        (pyStrip " K "), [.keyImported (pyStrip "bob")], .imported) :=
  ⟨by decide, by decide, by decide, by decide,
    C3_import_path_safe "bob" " K " L0 [] 1 (by decide) (by decide) (by decide) (by decide)⟩

/-- Counterexample for C4 as stated: an alias that is empty after trimming is
silently skipped — no file is written (that part of the claim holds), but no
`InvalidAlias` failure is surfaced and nothing at all is logged. -/
theorem C4_counterexample :
    (pyStrip "  ") = "" ∧
    import_key L0 [] "  " "KEYMAT" = ([], [], .skipped) := by
  refine ⟨by decide, by decide⟩

/-- Claim C4 (amended): an import whose alias is empty after trimming
performs no state change — and is silently skipped: no error is surfaced to
the caller and no log entry is written. -/
theorem C4_empty_alias_skipped (L : RSALib) (fs : FSys) (rawAlias rawKey : String)
    (h : (pyStrip rawAlias) = "") :
    import_key L fs rawAlias rawKey = (fs, [], .skipped) := by
  unfold import_key
  rw [if_neg (by simp [h])]

theorem C4_empty_alias_skipped_witness :
    (pyStrip "  ") = "" ∧
    import_key L0 [(resolvePath PRIVATE_KEY_PATH, "PEM")] "  " "KEYMAT" =
      ([(resolvePath PRIVATE_KEY_PATH, "PEM")], [], .skipped) :=
  ⟨by decide,
    C4_empty_alias_skipped L0 [(resolvePath PRIVATE_KEY_PATH, "PEM")] "  " "KEYMAT" (by decide)⟩

/-- An `ensure_keys` call that already sees both artifacts changes nothing. -/
theorem ensure_keys_of_present (L : RSALib) (st : KStore)
    (h1 : (fsGet st.files (resolvePath PRIVATE_KEY_PATH)).isSome = true)
    (h2 : (fsGet st.files (resolvePath PUBLIC_KEY_PATH)).isSome = true) :
    ensure_keys L st = st := by
  unfold ensure_keys
  rw [if_neg (by simp [h1, h2])]

/-- Claim C9: if `load_rsa_keys` succeeds, a second call on the resulting
store — which now sees both key artifacts present — returns the same key
pair and the same store: no generation occurs and no files are written. -/
theorem C9_identity_idempotent (L : RSALib) (st : KStore) (pair : Nat × Nat) (st1 : KStore)
    (h : load_rsa_keys L st = .ok (pair, st1)) :
    load_rsa_keys L st1 = .ok (pair, st1) := by
  unfold load_rsa_keys at h
  cases hpriv : fsGet (ensure_keys L st).files (resolvePath PRIVATE_KEY_PATH) with
  | none => simp [hpriv] at h
  | some privPem =>
    cases hpub : fsGet (ensure_keys L st).files (resolvePath PUBLIC_KEY_PATH) with
    | none => simp [hpriv, hpub] at h
    | some pubPem =>
      simp only [hpriv, hpub] at h
      cases hk1 : L.importKey privPem with
      | none => simp [hk1] at h
      | some k1 =>
        cases hk2 : L.importKey pubPem with
        | none => simp [hk1, hk2] at h
        | some k2 =>
          simp only [hk1, hk2] at h
          have h2 : (((k1, k2), ensure_keys L st) : (ℕ × ℕ) × KStore) = (pair, st1) := by
            injection h
          injection h2 with hp hs
          subst hp
          subst hs
          have hens : ensure_keys L (ensure_keys L st) = ensure_keys L st :=
            ensure_keys_of_present L (ensure_keys L st) (by rw [hpriv]; rfl) (by rw [hpub]; rfl)
          unfold load_rsa_keys
          rw [hens, hpriv, hpub]
          simp only [hk1, hk2]

/-- Witness for C9: a first load on an empty store generates the pair; the
second load returns the same pair on the unchanged store. -/
theorem C9_identity_idempotent_witness :
    load_rsa_keys L0 ⟨[], 0⟩ =
      .ok ((7, 6), ⟨[(resolvePath PRIVATE_KEY_PATH, "PRIVPEM"),
        (resolvePath PUBLIC_KEY_PATH, "PUBPEM")], 1⟩) ∧
    load_rsa_keys L0 ⟨[(resolvePath PRIVATE_KEY_PATH, "PRIVPEM"),
        (resolvePath PUBLIC_KEY_PATH, "PUBPEM")], 1⟩ =
      .ok ((7, 6), ⟨[(resolvePath PRIVATE_KEY_PATH, "PRIVPEM"),
        (resolvePath PUBLIC_KEY_PATH, "PUBPEM")], 1⟩) :=
  ⟨by rfl,
    C9_identity_idempotent L0 ⟨[], 0⟩ (7, 6)
      ⟨[(resolvePath PRIVATE_KEY_PATH, "PRIVPEM"),
        (resolvePath PUBLIC_KEY_PATH, "PUBPEM")], 1⟩ (by rfl)⟩

/-- Claim C10: the stored-key listing applies the Python expression
`key.replace(".pem", "")` to each `.pem` file name, removing every
occurrence of the substring `.pem`: an alias containing no `.pem` substring
is listed verbatim, while the valid alias `"a.pem"` (stored as the file
`"a.pem.pem"`) is listed as `"a"`, different from the alias itself. -/
theorem C10_listing :
    (∀ a : String, hasPem a.data = false → stored_keys [a ++ ".pem"] = [a]) ∧
    (stored_keys ["a.pem" ++ ".pem"] = ["a"] ∧ ("a" : String) ≠ "a.pem") := by
  refine ⟨?_, by decide, by decide⟩
  intro a ha
  unfold stored_keys
  have hdata : (a ++ ".pem").data = a.data ++ ['.', 'p', 'e', 'm'] := by
    rw [String.data_append]
  have hends : endsWithPem (a ++ ".pem").data = true := by
    rw [hdata]; exact endsWithPem_append a.data
  simp only [List.filter_cons, List.filter_nil, hends, if_true, List.map_cons, List.map_nil]
  rw [hdata, stripPem_append a.data ha]

/-- Witness for the universally quantified part of C10. -/
theorem C10_listing_witness :
    hasPem ("x" : String).data = false ∧ stored_keys ["x" ++ ".pem"] = ["x"] :=
  ⟨by decide, C10_listing.1 "x" (by decide)⟩
